import Mathlib

/-
Verification development for the crane-js grammar DSL layer
(src/dsl/index.js of the crane-parser repository).

The JavaScript source is shallowly embedded: classes become structures,
in-place mutation becomes explicit state passing, thrown exceptions become
Except results, and JS objects used as integer- or string-keyed dictionaries
become association lists (insertion overwrites in place, new keys are
appended, mirroring JS property-update order; built-in prototype properties
of Object are not modelled).  Functions of the repository that live outside
src/dsl/index.js (grammar.js, generator.js, parser-factory.js, the generated
DSL parser and the tokenizer) are modelled from the specification; each such
definition carries a doc comment starting "Modelled from the spec:".
External libraries (livescript, acorn, escodegen, vm) are abstracted as
constructors that record their input.
-/

/-- Associativity values LEFT, RIGHT, NONE imported from precedence.js. -/
inductive Assoc where
  | LEFT
  | RIGHT
  | NONE
deriving DecidableEq, Repr

/-- Result of compileLS: a livescript action snippet compiled (through
livescript, acorn and escodegen, abstracted here) into a JS function AST. -/
inductive ActionAST where
  | compiled (code : String)
deriving DecidableEq, Repr

/-- JavaScript runtime values, as far as the embedded code needs them. -/
inductive JSVal where
  | undef
  | null
  | str (s : String)
  | num (n : Int)
  | closure (body : ActionAST)
  | list (elems : List JSVal)

/-- JS typeof action === 'function'. -/
def JSVal.isFunc : JSVal → Bool
  | .closure _ => true
  | _ => false

/-- One production as the Grammar constructor receives it from toGrammar:
the fields type, production and prec kept by extractor. -/
structure Production where
  type : String
  production : List String
  prec : Option String
deriving DecidableEq, Repr

/-- One precedence level as collected by toGrammar: the declared token
values and the mapped associativity (field name type as in the source). -/
structure PrecLevel where
  tokens : List String
  type : Assoc
deriving DecidableEq, Repr

/-- The Grammar value of grammar.js as constructed by toGrammar: ordered
production list, root production index, ordered precedence list. -/
structure Grammar where
  productions : List Production
  root : Nat
  precedence : List PrecLevel
deriving DecidableEq, Repr

/-- Modelled from the spec: grammar.js is not under src/.  addProduction
appends a production built from lhs and rhs and returns the id of the
appended production, which is the number of productions before the append.
The call sites in src/dsl/index.js pass an empty meta object, so no
precedence override is attached. -/
def Grammar.addProduction (g : Grammar) (lhs : String) (rhs : List String) :
    Grammar × Nat :=
  ({ g with
      productions := g.productions ++ [{ type := lhs, production := rhs, prec := none }] },
   g.productions.length)

/-- Modelled from the spec: grammar.js is not under src/.  clone returns a
deep, independent copy; in value semantics the copy is the same value, and
independence is captured by the heap model below (cloneAlloc). -/
def Grammar.clone (g : Grammar) : Grammar := g

/-- Lookup in an integer-keyed JS object modelled as an association list. -/
def lookupA {α : Type} (l : List (Nat × α)) (k : Nat) : Option α :=
  match l with
  | [] => none
  | (k', v) :: rest => if k' = k then some v else lookupA rest k

/-- Property update on an integer-keyed JS object: an existing key keeps its
place and gets the new value, a new key is appended. -/
def setA {α : Type} (l : List (Nat × α)) (k : Nat) (v : α) : List (Nat × α) :=
  match l with
  | [] => [(k, v)]
  | (k', v') :: rest => if k' = k then (k, v) :: rest else (k', v') :: setA rest k v

/-- Source line table of the CraneGrammar constructor: an array of length
grammar.productions.length filled with -1. -/
def initialLineMappings (g : Grammar) : List Int :=
  List.replicate g.productions.length (-1)

/-- State of a ColdCraneGrammar object: actions are JS ASTs. -/
structure ColdCraneGrammar where
  grammar : Grammar
  actions : List (Nat × ActionAST)
  dependencies : List Nat
  sourceLineMappings : List Int
deriving DecidableEq, Repr

/-- State of a HotCraneGrammar object: actions are JS functions. -/
structure HotCraneGrammar where
  grammar : Grammar
  actions : List (Nat × JSVal)
  dependencies : List Nat
  sourceLineMappings : List Int
  origin : Option ColdCraneGrammar

/-- The ColdCraneGrammar constructor (CraneGrammar constructor followed by the
subclass constructor, which adds nothing). -/
def ColdCraneGrammar.make (g : Grammar) (actions : List (Nat × ActionAST))
    (dependencies : List Nat) : ColdCraneGrammar :=
  { grammar := g, actions := actions, dependencies := dependencies,
    sourceLineMappings := initialLineMappings g }

/-- The HotCraneGrammar constructor: the CraneGrammar constructor plus the
origin field initialised to null. -/
def HotCraneGrammar.make (g : Grammar) (actions : List (Nat × JSVal))
    (dependencies : List Nat) : HotCraneGrammar :=
  { grammar := g, actions := actions, dependencies := dependencies,
    sourceLineMappings := initialLineMappings g, origin := none }

/-- CraneGrammar.addSourceLineMapping on the cold variant. -/
def ColdCraneGrammar.addSourceLineMapping (c : ColdCraneGrammar)
    (production : Nat) (line : Int) : ColdCraneGrammar :=
  { c with sourceLineMappings := c.sourceLineMappings.set production line }

/-- Evaluation of one compiled action AST by escodegen plus vm.runInNewContext,
abstracted: the resulting JS function value is the closure of that AST. -/
def evalAST (a : ActionAST) : JSVal :=
  JSVal.closure a

/-- ColdCraneGrammar.cook: getActionAST collects every own key of
this.actions (parseInt recovers the integer production id) into an object
expression, escodegen and vm evaluate it to an object mapping those same
integer keys to evaluated function values, and a HotCraneGrammar is built
sharing grammar and dependencies, with sourceLineMappings taken from the
cold grammar and origin set to it.  The cold state is returned unchanged as
the second component, making the absence of side effects on it explicit. -/
def ColdCraneGrammar.cook (c : ColdCraneGrammar) :
    HotCraneGrammar × ColdCraneGrammar :=
  let object := c.actions.map (fun p => (p.fst, evalAST p.snd))
  let cooked := HotCraneGrammar.make c.grammar object c.dependencies
  ({ cooked with sourceLineMappings := c.sourceLineMappings, origin := some c }, c)

/-- HotCraneGrammar.augment: when action is a function it is stored in
this.actions under the key this.grammar.productions.length (the length
before the append), then addProduction appends the production. -/
def HotCraneGrammar.augment (h : HotCraneGrammar) (nt : String)
    (tokens : List String) (action : JSVal) : HotCraneGrammar :=
  let acts :=
    if action.isFunc then setA h.actions h.grammar.productions.length action
    else h.actions
  let g := (h.grammar.addProduction nt tokens).fst
  { h with actions := acts, grammar := g }

/-- Modelled from the spec: parser-factory.js is not under src/.  The engine
resolves a production id against the action table; an absent entry falls
back to the default resolution. -/
inductive ActionChoice where
  | custom (f : JSVal)
  | fallback

/-- Modelled from the spec: the engine uses the table entry for the
production id if present, else the default. -/
def chooseAction (actions : List (Nat × JSVal)) (pid : Nat) : ActionChoice :=
  match lookupA actions pid with
  | some f => .custom f
  | none => .fallback

/-- Modelled from the spec: the default action resolves to the first
symbol's value, or an empty sequence if the rhs is empty. -/
def defaultActionValue (vals : List JSVal) : JSVal :=
  match vals with
  | [] => .list []
  | v :: _ => v

/-
Heap model for C3: object identity for Grammar values.  A heap is a list of
Grammar cells; a CraneGrammar object holds a reference (cell index) to its
grammar.  Cloning allocates a fresh cell holding an equal value; the table
builder clr (generator.js, not under src/) may mutate the cell it is handed.
-/

/-- Heap of Grammar objects, indexed by allocation order. -/
def GrammarHeap : Type := List Grammar

/-- Read a heap cell (a dangling reference reads a default empty grammar). -/
def GrammarHeap.read (h : GrammarHeap) (r : Nat) : Grammar :=
  List.getD h r { productions := [], root := 0, precedence := [] }

/-- Grammar.clone through the heap: allocate a fresh cell holding an equal
value and return its reference. -/
def cloneAlloc (h : GrammarHeap) (r : Nat) : GrammarHeap × Nat :=
  (List.append h [h.read r], List.length h)

/-- The parsing table artifact; its internal contents are irrelevant to the
frame claim, recorded as the grammar the builder consumed. -/
structure ParsingTable where
  builtFrom : Grammar
deriving DecidableEq, Repr

/-- Modelled from the spec: generator.js is not under src/.  clr augments the
grammar it is handed with the synthetic root production (a mutation of that
cell in the heap model) and computes the table from the augmented grammar. -/
def clrOnHeap (h : GrammarHeap) (r : Nat) (_debug : Bool) :
    ParsingTable × GrammarHeap :=
  let g := h.read r
  let augmented :=
    { g with productions :=
        { type := "$start", production := ["$root"], prec := none } :: g.productions }
  ({ builtFrom := augmented }, h.set r augmented)

/-- CraneGrammar.generateParsingTable in the heap model: clr is invoked on a
clone of the held grammar (clr (this.grammar.clone(), debug)).  The caller's
reference r is left pointing at its old cell. -/
def generateParsingTable (h : GrammarHeap) (r : Nat) (debug : Bool) :
    ParsingTable × GrammarHeap :=
  let cloned := cloneAlloc h r
  clrOnHeap cloned.fst cloned.snd debug

/-
Conflict-resolution model for C6.  generator.js is not under src/; resolution
is modelled from the spec's policy for shift/reduce conflicts.
-/

/-- A resolved parsing-table action. -/
inductive SRAction where
  | shift (next : Nat)
  | reduce (productionId : Nat)
deriving DecidableEq, Repr

/-- The build-time grammar-conflict error. -/
inductive ConflictError where
  | grammarConflict
deriving DecidableEq, Repr

/-- Modelled from the spec: shift/reduce resolution.  Default to shift;
reduce only when the reducing production's declared effective level is
strictly higher than the incoming terminal's level, or equal with LEFT
associativity; equal with RIGHT keeps the shift; equal with NONE is a hard
conflict raising the fatal grammar error. -/
def resolveShiftReduce (next pid : Nat) (prodLevel : Option Nat)
    (termLevel : Option (Nat × Assoc)) : Except ConflictError SRAction :=
  match prodLevel, termLevel with
  | some p, some (t, a) =>
    if t < p then .ok (.reduce pid)
    else if p = t then
      match a with
      | .LEFT => .ok (.reduce pid)
      | .RIGHT => .ok (.shift next)
      | .NONE => .error .grammarConflict
    else .ok (.shift next)
  | _, _ => .ok (.shift next)

/-- One state/terminal cell of the automaton before resolution: an optional
shift candidate, an optional reduce candidate with the production's
effective precedence level, and the incoming terminal's precedence entry. -/
structure SRCell where
  shiftNext : Option Nat
  reduceCand : Option (Nat × Option Nat)
  termPrec : Option (Nat × Assoc)
deriving DecidableEq, Repr

/-- Modelled from the spec: resolve one cell.  Both candidates present is a
shift/reduce conflict handled by resolveShiftReduce; a single candidate
stands. -/
def resolveCell (c : SRCell) : Except ConflictError (Option SRAction) :=
  match c.shiftNext, c.reduceCand with
  | some n, some (pid, plevel) =>
    (resolveShiftReduce n pid plevel c.termPrec).map some
  | some n, none => .ok (some (.shift n))
  | none, some (pid, _) => .ok (some (.reduce pid))
  | none, none => .ok none

/-- Modelled from the spec: table construction resolves every cell; the
first fatal conflict aborts the build, so no table is produced. -/
def buildTableActions (cells : List SRCell) :
    Except ConflictError (List (Option SRAction)) :=
  match cells with
  | [] => .ok []
  | c :: rest =>
    match resolveCell c with
    | .error e => .error e
    | .ok a =>
      match buildTableActions rest with
      | .error e => .error e
      | .ok l => .ok (a :: l)

/-
Embedding of toGrammar (src/dsl/index.js lines 173-464).  The DSL AST is the
parse result the generated parser hands to toGrammar; node type strings of
the source become constructors.  The ctxt argument is modelled at its
default (empty object), so the built-in multiple macro is the only context
function.  JS prototype-chained vars objects become an explicit store of
scopes addressed by allocation index, each definition entry carrying its
chain of scope indices (innermost first); the undefined value that JS
resolve produces for an id or call argument of the multiple macro is
modelled as the string "undefined".
-/

mutual
inductive DslExpr where
  | strE (value : String)
  | idE (name : String)
  | addressE (path : List String)
  | callE (name : String) (args : List (List DslExpr))

inductive DslLine where
  | precLine (kind : String) (tokens : List String) (loc : Option Nat)
  | definition (name : String) (body : List DslLine) (loc : Option Nat)
  | production (prod : List DslExpr) (code : Option String) (prec : Option String)
      (loc : Option Nat)
  | importLine (loc : Option Nat)
end

/-- Start line of a DSL line's loc, when the parser attached one. -/
def DslLine.loc : DslLine → Option Nat
  | .precLine _ _ l => l
  | .definition _ _ l => l
  | .production _ _ _ l => l
  | .importLine l => l

mutual
/-- Size of a line, counting nested definition bodies; drives the
termination of the BFS queue processing below. -/
def DslLine.size : DslLine → Nat
  | .definition _ body _ => 1 + DslLine.sizeList body
  | _ => 1

/-- Total size of a list of lines. -/
def DslLine.sizeList : List DslLine → Nat
  | [] => 0
  | l :: rest => DslLine.size l + DslLine.sizeList rest
end

/-- One collected entry of the toGrammar list variable. -/
structure ListEntry where
  type : String
  line : Nat
  production : List String
  code : Option String
  prec : Option String
deriving DecidableEq, Repr

/-- Mutable state threaded through toGrammar: the scope store (vars objects
by allocation index), the precedence accumulator, the collected production
list, the newId counter i, the current sourceLine and the dependency
lines. -/
structure TGState where
  store : List (List (String × String))
  precedence : List PrecLevel
  list : List ListEntry
  counter : Nat
  sourceLine : Nat
  deps : List Nat
deriving DecidableEq, Repr

/-- Own-property lookup on one vars object. -/
def lookupS (l : List (String × String)) (k : String) : Option String :=
  match l with
  | [] => none
  | (k', v) :: rest => if k' = k then some v else lookupS rest k

/-- Property update on one vars object: an existing key keeps its place, a
new key is appended. -/
def setS (l : List (String × String)) (k v : String) : List (String × String) :=
  match l with
  | [] => [(k, v)]
  | (k', v') :: rest => if k' = k then (k, v) :: rest else (k', v') :: setS rest k v

/-- Prototype-chain lookup: the innermost scope's own binding wins, then the
enclosing scopes in order. -/
def lookupChain (store : List (List (String × String))) :
    List Nat → String → Option String
  | [], _ => none
  | sid :: rest, n =>
    match lookupS (store.getD sid []) n with
    | some v => some v
    | none => lookupChain store rest n

/-- JS in operator on a vars object (prototype chain included). -/
def chainHas (store : List (List (String × String))) (chain : List Nat)
    (n : String) : Bool :=
  (lookupChain store chain n).isSome

/-- Binding vars[k] = v on the innermost scope of the chain. -/
def TGState.bindVar (st : TGState) (chain : List Nat) (k v : String) : TGState :=
  let sid := chain.headD 0
  { st with store := st.store.set sid (setS (st.store.getD sid []) k v) }

/-- One production line collected during a body scan, with the sourceLine
value captured at scan time. -/
structure ProdRec where
  line : Nat
  prod : List DslExpr
  code : Option String
  prec : Option String

/-- One entry of the defs queue: a definition body, the namespaced name and
the scope chain of its vars object. -/
structure DefEntry where
  body : List DslLine
  name : String
  chain : List Nat

/-- Namespacing of a defined non-terminal: the scope name, a dot and the
definition's own name, with no prefix at the top level. -/
def qualify (name dname : String) : String :=
  if name = "" then dname else name ++ "." ++ dname

/-- JS rootName || ntType: null and the empty string both fall through to
the first-defined non-terminal. -/
def jsOrName (rootName : Option String) (ntType : String) : String :=
  match rootName with
  | some s => if s = "" then ntType else s
  | none => ntType

/-- Test of precedenceRegex, matching exactly left, right and none. -/
def precedenceRegexTest (s : String) : Bool :=
  s == "left" || s == "right" || s == "none"

/-- The precedenceMapper object of the source. -/
def precedenceMapper (s : String) : Assoc :=
  if s = "left" then .LEFT else if s = "right" then .RIGHT else .NONE

/-- The localCtxt resolve: a name falls back to itself when unbound. -/
def resolveLocal (store : List (List (String × String))) (chain : List Nat)
    (n : String) : String :=
  match lookupChain store chain n with
  | some v => v
  | none => n

/-- Path join of the source: the resolved root alone, or root.rest. -/
def joinPath (resolved : String) (rest : List String) : String :=
  if rest.length = 0 then resolved else resolved ++ "." ++ String.intercalate "." rest

/-- The localCtxt resolvePath over an address path. -/
def resolvePathLocal (store : List (List (String × String))) (chain : List Nat)
    (path : List String) : String :=
  match path with
  | [] => "undefined"
  | root :: rest => joinPath (resolveLocal store chain root) rest

/-- The resolve helper of toGrammar used by the multiple macro: an address
resolves through resolvePath, anything else yields its value property
(undefined for id and call nodes, modelled as the string "undefined"). -/
def resolveArg (store : List (List (String × String))) (chain : List Nat) :
    DslExpr → String
  | .addressE path => resolvePathLocal store chain path
  | .strE v => v
  | _ => "undefined"

/-- The context.multiple macro: allocates a fresh list non-terminal name and
pushes its empty, singleton and cons productions (with or without a
separator) onto the collected list, returning the fresh name. -/
def runMultiple (st : TGState) (chain : List Nat) (args : List (List DslExpr)) :
    Except String (TGState × String) :=
  match ((args.get? 0).getD []).get? 0 with
  | none => .error "TypeError: cannot destructure undefined"
  | some e =>
    let nm := "$__" ++ toString (st.counter + 1)
    let st1 := { st with counter := st.counter + 1 }
    let ev := resolveArg st1.store chain e
    let base : List ListEntry := [
      { type := nm, line := st1.sourceLine, production := [],
        code := some "[]", prec := none },
      { type := nm, line := st1.sourceLine, production := [ev],
        code := some "[$[0]]", prec := none } ]
    let extra : List ListEntry :=
      match ((args.get? 1).getD []).get? 0 with
      | some sep =>
        [{ type := nm, line := st1.sourceLine,
           production := [nm, resolveArg st1.store chain sep, ev],
           code := some "[...$[0], $[2]]", prec := none }]
      | none =>
        [{ type := nm, line := st1.sourceLine,
           production := [nm, ev],
           code := some "[...$[0], $[1]]", prec := none }]
    .ok ({ st1 with list := st1.list ++ base ++ extra }, nm)

/-- Reformation of one symbol of a production (the body of the for loop over
p.production): strings stand for themselves, a call runs the context macro
and checks the returned handle against the scope chain, an address and an id
resolve through the chain and throw on an unbound head. -/
def reformExpr (st : TGState) (chain : List Nat) :
    DslExpr → Except String (TGState × String)
  | .strE v => .ok (st, v)
  | .callE cname args =>
    if cname = "multiple" then
      match runMultiple st chain args with
      | .error e => .error e
      | .ok (st', handle) =>
        if chainHas st'.store chain handle then
          .error ("Handle conflict error " ++ handle)
        else
          .ok (st', handle)
    else
      .error ("TypeError: context." ++ cname ++ " is not a function")
  | .addressE path =>
    match path with
    | [] => .error "Non-terminal \"undefined\" not defined"
    | place :: rest =>
      match lookupChain st.store chain place with
      | some v => .ok (st, joinPath v rest)
      | none => .error ("Non-terminal \"" ++ place ++ "\" not defined")
  | .idE n =>
    match lookupChain st.store chain n with
    | some v => .ok (st, v)
    | none => .error ("Non-terminal \"" ++ n ++ "\" not defined")

/-- Reformation of a whole production, left to right. -/
def reformExprs (chain : List Nat) :
    List DslExpr → TGState → List String → Except String (TGState × List String)
  | [], st, acc => .ok (st, acc)
  | e :: rest, st, acc =>
    match reformExpr st chain e with
    | .error msg => .error msg
    | .ok (st', s) => reformExprs chain rest st' (acc ++ [s])

/-- The productions.forEach loop of toGrammar: each collected production is
reformed and pushed onto the list with its captured line, code and prec. -/
def reformProds (name : String) (chain : List Nat) :
    List ProdRec → TGState → Except String TGState
  | [], st => .ok st
  | p :: rest, st =>
    match reformExprs chain p.prod st [] with
    | .error msg => .error msg
    | .ok (st', reformed) =>
      reformProds name chain rest
        { st' with list := st'.list ++
            [{ type := name, line := p.line, production := reformed,
               code := p.code, prec := p.prec }] }

/-- The for loop over a dequeued body: updates sourceLine per line, collects
top-level precedence levels (rejecting nested ones), binds definitions and
queues their bodies (allocating a child scope with the current chain as
prototype, and pushing the synthetic root entry when the list is still
empty), collects productions (rejected at top level) and imports. -/
def scanBody (rootName : Option String) (name : String) (chain : List Nat) :
    List DslLine → TGState → List DefEntry → List ProdRec →
    Except String (TGState × List DefEntry × List ProdRec)
  | [], st, defsAcc, prodsAcc => .ok (st, defsAcc, prodsAcc)
  | line :: rest, st, defsAcc, prodsAcc =>
    let st0 := { st with sourceLine := (DslLine.loc line).getD st.sourceLine }
    match line with
    | .precLine kind tokens _ =>
      if precedenceRegexTest kind then
        if 0 < name.length then
          .error "Top-level precedence declarations only, please!"
        else
          scanBody rootName name chain rest
            { st0 with precedence := st0.precedence ++
                [{ tokens := tokens, type := precedenceMapper kind }] }
            defsAcc prodsAcc
      else
        scanBody rootName name chain rest st0 defsAcc prodsAcc
    | .definition dname dbody _ =>
      let ntType := qualify name dname
      let st1 := st0.bindVar chain dname ntType
      let st2 :=
        if st1.list.length = 0 then
          { st1 with list := st1.list ++
              [{ type := "$$$", line := st1.sourceLine,
                 production := [jsOrName rootName ntType],
                 code := some "$[0]", prec := none }] }
        else st1
      let newSid := st2.store.length
      let st3 := { st2 with store := st2.store ++ [[]] }
      scanBody rootName name chain rest st3
        (defsAcc ++ [{ body := dbody, name := ntType, chain := newSid :: chain }])
        prodsAcc
    | .production prod code prec _ =>
      if name.length = 0 then
        .error "Top level productions not allowed!"
      else
        scanBody rootName name chain rest st0 defsAcc
          (prodsAcc ++ [{ line := st0.sourceLine, prod := prod,
                          code := code, prec := prec }])
    | .importLine _ =>
      scanBody rootName name chain rest
        { st0 with deps := st0.deps ++ [st0.sourceLine] } defsAcc prodsAcc

/-- Processing of one dequeued defs entry: scan the body, then reform its
collected productions; the children are the definitions found, in order. -/
def processDef (rootName : Option String) (d : DefEntry) (st : TGState) :
    Except String (TGState × List DefEntry) :=
  match scanBody rootName d.name d.chain d.body st [] [] with
  | .error e => .error e
  | .ok (st1, children, prods) =>
    match reformProds d.name d.chain prods st1 with
    | .error e => .error e
    | .ok st2 => .ok (st2, children)

/-- Measure of one queue entry. -/
def DefEntry.msize (d : DefEntry) : Nat := DslLine.sizeList d.body + 1

/-- Measure of the whole queue. -/
def queueMeasure (q : List DefEntry) : Nat := (q.map DefEntry.msize).sum

theorem scanBody_measure (rootName : Option String) (name : String)
    (chain : List Nat) :
    ∀ (lines : List DslLine) (st : TGState) (defsAcc : List DefEntry)
      (prodsAcc : List ProdRec) st1 children prods,
      scanBody rootName name chain lines st defsAcc prodsAcc
        = .ok (st1, children, prods) →
      queueMeasure children ≤ queueMeasure defsAcc + DslLine.sizeList lines := by
  intro lines
  induction lines with
  | nil =>
    intro st defsAcc prodsAcc st1 children prods h
    simp only [scanBody] at h
    cases h
    simp [DslLine.sizeList]
  | cons line rest ih =>
    intro st defsAcc prodsAcc st1 children prods h
    cases line with
    | precLine kind tokens l =>
      simp only [scanBody] at h
      by_cases hk : precedenceRegexTest kind = true
      · simp only [hk, if_true] at h
        by_cases hn : 0 < name.length
        · simp [hn] at h
        · simp only [hn, if_false] at h
          have := ih _ _ _ _ _ _ h
          simp only [DslLine.sizeList, DslLine.size]
          omega
      · simp only [hk, if_false] at h
        have := ih _ _ _ _ _ _ h
        simp only [DslLine.sizeList, DslLine.size]
        omega
    | definition dname dbody l =>
      simp only [scanBody] at h
      have := ih _ _ _ _ _ _ h
      simp only [queueMeasure, List.map_append, List.sum_append, List.map,
        List.sum_cons, List.sum_nil, DefEntry.msize, DslLine.sizeList,
        DslLine.size] at *
      omega
    | production prod code prec l =>
      simp only [scanBody] at h
      by_cases hn : name.length = 0
      · simp [hn] at h
      · simp only [hn, if_false] at h
        have := ih _ _ _ _ _ _ h
        simp only [DslLine.sizeList, DslLine.size]
        omega
    | importLine l =>
      simp only [scanBody] at h
      have := ih _ _ _ _ _ _ h
      simp only [DslLine.sizeList, DslLine.size]
      omega

theorem processDef_measure (rootName : Option String) (d : DefEntry)
    (st : TGState) (st2 : TGState) (children : List DefEntry)
    (h : processDef rootName d st = .ok (st2, children)) :
    queueMeasure children ≤ DslLine.sizeList d.body := by
  unfold processDef at h
  cases hs : scanBody rootName d.name d.chain d.body st [] [] with
  | error e => rw [hs] at h; cases h
  | ok v =>
    obtain ⟨st1, children', prods⟩ := v
    rw [hs] at h
    have hm := scanBody_measure rootName d.name d.chain d.body st [] [] st1 children' prods hs
    cases hr : reformProds d.name d.chain prods st1 with
    | error e => simp [hr] at h
    | ok stx =>
      simp only [hr] at h
      cases h
      simpa [queueMeasure] using hm

/-- The while loop over the defs queue (FIFO: children are appended). -/
def processQueue (rootName : Option String) :
    List DefEntry → TGState → Except String TGState
  | [], st => .ok st
  | d :: rest, st =>
    match h : processDef rootName d st with
    | .error e => .error e
    | .ok (st1, children) => processQueue rootName (rest ++ children) st1
termination_by q => queueMeasure q
decreasing_by
  have hm := processDef_measure rootName d st st1 children h
  simp only [queueMeasure, List.map_append, List.sum_append, List.map_cons,
    List.sum_cons, DefEntry.msize] at *
  omega

/-- Truthiness of a collected entry's code snippet (the empty string is
falsy in JS). -/
def entryCodeTruthy (e : ListEntry) : Bool :=
  match e.code with
  | some s => s != ""
  | none => false

/-- The compileLS of the source, called by toGrammar with the default empty
alias map: livescript compilation and acorn parsing are abstracted as the
compiled constructor. -/
def compileLS (code : String) : ActionAST :=
  ActionAST.compiled code

/-- The action one collected entry contributes: compileLS of its code
snippet when that snippet is truthy, nothing otherwise. -/
def entryAction (e : ListEntry) : Option ActionAST :=
  match e.code with
  | some s => if s != "" then some (compileLS s) else none
  | none => none

/-- The reduce over the collected list building the action object: entries
with a truthy code snippet contribute compileLS(code) under their index. -/
def buildActionTable (l : List ListEntry) : List (Nat × ActionAST) :=
  l.enum.filterMap (fun p => (entryAction p.snd).map (fun a => (p.fst, a)))

/-- The extractor of the source applied to type, production and prec. -/
def extractor (e : ListEntry) : Production :=
  { type := e.type, production := e.production, prec := e.prec }

/-- The forEach installing each entry's captured line into the
sourceLineMappings table. -/
def applyLineMappings (c : ColdCraneGrammar) (l : List ListEntry) :
    ColdCraneGrammar :=
  l.enum.foldl
    (fun acc p => acc.addSourceLineMapping p.fst (Int.ofNat p.snd.line)) c

/-- The initial toGrammar state: one empty top-level vars object. -/
def initialTGState : TGState :=
  { store := [[]], precedence := [], list := [], counter := 0,
    sourceLine := 0, deps := [] }

/-- The toGrammar function of the source (ctxt at its default): the body is
queued as the unnamed top-level definition, the queue is processed, and the
resulting list is folded into the action table, the Grammar (root index 0)
and the ColdCraneGrammar with its source line mappings. -/
def toGrammar (code : List DslLine) (rootName : Option String) :
    Except String ColdCraneGrammar :=
  match processQueue rootName [{ body := code, name := "", chain := [0] }]
      initialTGState with
  | .error e => .error e
  | .ok st =>
    let actions := buildActionTable st.list
    let grammar : Grammar :=
      { productions := st.list.map extractor, root := 0,
        precedence := st.precedence }
    let cold := ColdCraneGrammar.make grammar actions st.deps
    .ok (applyLineMappings cold st.list)

/-
Embedding of getLoc (src/dsl/index.js lines 466-488) and of the error path
of compile (lines 520-531).
-/

/-- A line/column position as getLoc accumulates it. -/
structure LinePos where
  line : Nat
  column : Nat
deriving DecidableEq, Repr

/-- One step of getLoc's position tracking: a newline advances the line and
resets the column, anything else advances the column. -/
def advancePos (p : LinePos) (c : Char) : LinePos :=
  if c = '\n' then { line := p.line + 1, column := 0 }
  else { p with column := p.column + 1 }

/-- The for-of loop of getLoc: i counts consumed characters, list holds the
positions already captured for range prefixes; when the captured list
reaches the length of range the loop returns it, and falling off the end of
the source returns undefined. -/
def getLocLoop (range : List Nat) :
    List Char → Nat → LinePos → List LinePos → Option (List LinePos)
  | [], _, _, _ => none
  | c :: src, i, pos, acc =>
    if range.get? acc.length = some i then
      let acc' := acc ++ [pos]
      if acc'.length = range.length then some acc'
      else getLocLoop range src (i + 1) (advancePos pos c) acc'
    else
      getLocLoop range src (i + 1) (advancePos pos c) acc

/-- The getLoc function over a token's source and two-offset range: the
start and end positions, or undefined when the loop runs out of source. -/
def getLoc (source : List Char) (r0 r1 : Nat) : Option (LinePos × LinePos) :=
  match getLocLoop [r0, r1] source 0 { line := 1, column := 0 } [] with
  | some (s :: e :: _) => some (s, e)
  | _ => none

/-- Reference line/column of a character offset: position after folding the
first n characters from line 1, column 0. -/
def lineColAt (source : List Char) (n : Nat) : LinePos :=
  (source.take n).foldl advancePos { line := 1, column := 0 }

/-- A token as the compile loop sees it: terminal type, value, and the
source/range pair getLoc destructures. -/
structure DslToken where
  type : String
  value : String
  source : List Char
  range : List Nat

/-- Outcome of the compile error path: a rethrown Error with the located
message, or the TypeError raised by reading .start of undefined when getLoc
returned no location. -/
inductive CompileFailure where
  | thrown (message : String)
  | typeErrorUndefined

/-- The catch block of compile: getLoc(token) is destructured to .start and
the original message is rethrown with the location appended; when getLoc
produced undefined the property read itself throws a TypeError. -/
def rethrowWithLoc (message : String) (t : DslToken) : CompileFailure :=
  match getLoc t.source (t.range.getD 0 0) (t.range.getD 1 0) with
  | some (s, _) =>
    .thrown (message ++ " @" ++ toString s.line ++ ":" ++ toString s.column)
  | none => .typeErrorUndefined

/-- Modelled from the spec: the generated DSL parser (parser.out.js, not
under src/) is a stateful push automaton; its state and push function are
abstract parameters here.  pushFn returns the new state or the thrown
error's message. -/
def PushFn (σ : Type) : Type := σ → DslToken → Except String σ

/-- The token loop of compile: each token is pushed; a push that throws is
caught and rethrown with the token's location (no further token is
consumed). -/
def compileLoop {σ : Type} (pushFn : PushFn σ) :
    σ → List DslToken → Except CompileFailure σ
  | st, [] => .ok st
  | st, t :: rest =>
    match pushFn st t with
    | .ok st' => compileLoop pushFn st' rest
    | .error msg => .error (rethrowWithLoc msg t)

/-- The compile function of the source over the modelled parser: tokenize
(postprocess.js, not under src/) is abstracted as the given token list,
finishFn as the parser's finish producing the DSL body handed to
toGrammar. -/
def compile {σ : Type} (pushFn : PushFn σ) (finishFn : σ → List DslLine)
    (init : σ) (tokens : List DslToken) (name : Option String) :
    Except CompileFailure ColdCraneGrammar :=
  match compileLoop pushFn init tokens with
  | .error e => .error e
  | .ok st =>
    match toGrammar (finishFn st) name with
    | .error e => .error (.thrown e)
    | .ok g => .ok g

/-
Helper lemmas about the association-list dictionaries and the heap.
-/

theorem lookupA_setA_self {α : Type} (l : List (Nat × α)) (k : Nat) (v : α) :
    lookupA (setA l k v) k = some v := by
  induction l with
  | nil => simp [setA, lookupA]
  | cons p rest ih =>
    obtain ⟨k', v'⟩ := p
    by_cases hk : k' = k
    · simp [setA, hk, lookupA]
    · simp [setA, hk, lookupA, ih]

theorem lookupA_mapVals {α β : Type} (f : α → β) (l : List (Nat × α)) (k : Nat) :
    lookupA (l.map (fun p => (p.fst, f p.snd))) k = (lookupA l k).map f := by
  induction l with
  | nil => simp [lookupA]
  | cons p rest ih =>
    obtain ⟨k', v'⟩ := p
    by_cases hk : k' = k
    · simp [lookupA, hk]
    · simp [lookupA, hk, ih]

theorem heap_read_set_ne (h : GrammarHeap) (i j : Nat) (x : Grammar)
    (hij : i ≠ j) : GrammarHeap.read (h.set i x) j = h.read j := by
  unfold GrammarHeap.read
  rw [List.getD_eq_getElem?_getD, List.getD_eq_getElem?_getD,
    List.getElem?_set_ne hij]

theorem heap_read_append_left (h : GrammarHeap) (t : List Grammar) (j : Nat)
    (hj : j < h.length) : GrammarHeap.read (List.append h t) j = h.read j := by
  unfold GrammarHeap.read
  rw [List.getD_eq_getElem?_getD, List.getD_eq_getElem?_getD, List.append_eq,
    List.getElem?_append]
  simp [hj]

/-- Claim C1: HotCraneGrammar.augment appends exactly one production built
from nt and tokens; a function-valued action is stored under the id of the
newly appended production (the number of productions before the append);
a non-function action leaves the action table unchanged, so the new
production resolves to the default fallback. -/
theorem augment_appends_production_and_action
    (h : HotCraneGrammar) (nt : String) (tokens : List String) (action : JSVal) :
    (h.augment nt tokens action).grammar.productions
        = h.grammar.productions ++ [{ type := nt, production := tokens, prec := none }]
    ∧ (action.isFunc = true →
        (h.augment nt tokens action).actions
            = setA h.actions (h.grammar.addProduction nt tokens).snd action
        ∧ lookupA (h.augment nt tokens action).actions
            (h.grammar.addProduction nt tokens).snd = some action)
    ∧ (action.isFunc = false →
        (h.augment nt tokens action).actions = h.actions
        ∧ (lookupA h.actions h.grammar.productions.length = none →
            chooseAction (h.augment nt tokens action).actions
              (h.grammar.addProduction nt tokens).snd = ActionChoice.fallback)) := by
  refine ⟨?_, ?_, ?_⟩
  · simp [HotCraneGrammar.augment, Grammar.addProduction]
  · intro hf
    refine ⟨?_, ?_⟩
    · simp [HotCraneGrammar.augment, hf, Grammar.addProduction]
    · simp [HotCraneGrammar.augment, hf, Grammar.addProduction, lookupA_setA_self]
  · intro hf
    refine ⟨?_, ?_⟩
    · simp [HotCraneGrammar.augment, hf]
    · intro hnone
      simp [HotCraneGrammar.augment, hf, chooseAction, Grammar.addProduction, hnone]

/-- Sample grammar for concrete instantiations. -/
def sampleGrammar : Grammar :=
  { productions := [{ type := "e", production := ["n"], prec := none }],
    root := 0, precedence := [] }

/-- Sample hot grammar for concrete instantiations. -/
def sampleHot : HotCraneGrammar :=
  HotCraneGrammar.make sampleGrammar [] []

/-- Witness for C1 at a concrete grammar and a function-valued action. -/
theorem augment_appends_production_and_action_witness :
    (sampleHot.augment "e" ["x"] (JSVal.closure (ActionAST.compiled "f"))).grammar.productions
        = sampleHot.grammar.productions
            ++ [{ type := "e", production := ["x"], prec := none }]
    ∧ lookupA (sampleHot.augment "e" ["x"]
          (JSVal.closure (ActionAST.compiled "f"))).actions
        (sampleHot.grammar.addProduction "e" ["x"]).snd
        = some (JSVal.closure (ActionAST.compiled "f")) :=
  ⟨(augment_appends_production_and_action sampleHot "e" ["x"] _).1,
   ((augment_appends_production_and_action sampleHot "e" ["x"]
      (JSVal.closure (ActionAST.compiled "f"))).2.1 rfl).2⟩

/-- Claim C7: cook is a side-effect-free transition: the cold grammar is
unchanged, and the returned hot grammar shares grammar and dependencies,
carries the cold sourceLineMappings, sets origin to the cold grammar, and
holds the evaluated callables one-to-one under the same integer keys. -/
theorem cook_pure_transition (c : ColdCraneGrammar) :
    (c.cook).snd = c
    ∧ (c.cook).fst.grammar = c.grammar
    ∧ (c.cook).fst.dependencies = c.dependencies
    ∧ (c.cook).fst.sourceLineMappings = c.sourceLineMappings
    ∧ (c.cook).fst.origin = some c
    ∧ (c.cook).fst.actions = c.actions.map (fun p => (p.fst, evalAST p.snd))
    ∧ (c.cook).fst.actions.map Prod.fst = c.actions.map Prod.fst
    ∧ ∀ k, lookupA (c.cook).fst.actions k = (lookupA c.actions k).map evalAST := by
  refine ⟨rfl, rfl, rfl, rfl, rfl, rfl, ?_, ?_⟩
  · simp [ColdCraneGrammar.cook, HotCraneGrammar.make]
  · intro k
    exact lookupA_mapVals evalAST c.actions k

/-- Claim C3: generateParsingTable invokes the table builder on a freshly
allocated clone, so the caller-held grammar cell is identical before and
after the call in its production list, root and precedence. -/
theorem generateParsingTable_frame (h : GrammarHeap) (r : Nat) (debug : Bool)
    (hr : r < h.length) :
    (generateParsingTable h r debug).snd.read r = h.read r
    ∧ ((generateParsingTable h r debug).snd.read r).productions
        = (h.read r).productions
    ∧ ((generateParsingTable h r debug).snd.read r).root = (h.read r).root
    ∧ ((generateParsingTable h r debug).snd.read r).precedence
        = (h.read r).precedence := by
  have key : (generateParsingTable h r debug).snd.read r = h.read r := by
    show GrammarHeap.read
      ((List.append h [h.read r]).set (List.length h) _) r = h.read r
    rw [heap_read_set_ne _ _ _ _ (by omega), heap_read_append_left h _ r hr]
  exact ⟨key, by rw [key], by rw [key], by rw [key]⟩

/-- Witness for C3 on a one-cell heap. -/
theorem generateParsingTable_frame_witness :
    0 < List.length [sampleGrammar]
    ∧ (generateParsingTable [sampleGrammar] 0 false).snd.read 0
        = GrammarHeap.read [sampleGrammar] 0 :=
  ⟨by simp, (generateParsingTable_frame [sampleGrammar] 0 false (by simp)).1⟩

theorem buildTableActions_not_ok (c : SRCell)
    (hc : resolveCell c = .error .grammarConflict) :
    ∀ (cells : List SRCell), c ∈ cells →
      ∀ acts, buildTableActions cells ≠ .ok acts := by
  intro cells
  induction cells with
  | nil => intro hmem; cases hmem
  | cons c0 rest ih =>
    intro hmem acts hok
    rcases List.mem_cons.mp hmem with h0 | h0
    · subst h0
      rw [buildTableActions, hc] at hok
      cases hok
    · rw [buildTableActions] at hok
      cases hr0 : resolveCell c0 with
      | error e => rw [hr0] at hok; cases hok
      | ok a =>
        rw [hr0] at hok
        cases hrest : buildTableActions rest with
        | error e => rw [hrest] at hok; cases hok
        | ok l' => exact ih h0 l' hrest

/-- Claim C6: a shift/reduce conflict in which the reducing production's
effective level equals the incoming terminal's level and that level has
NONE associativity resolves to the fatal grammar-conflict error, and a cell
list containing such a conflict cell never yields a table. -/
theorem noneAssoc_conflict_aborts_build (cells : List SRCell) (c : SRCell)
    (n pid l : Nat)
    (hmem : c ∈ cells)
    (hshift : c.shiftNext = some n)
    (hreduce : c.reduceCand = some (pid, some l))
    (hterm : c.termPrec = some (l, Assoc.NONE)) :
    resolveCell c = .error .grammarConflict
    ∧ ∀ acts, buildTableActions cells ≠ .ok acts := by
  have hc : resolveCell c = .error .grammarConflict := by
    simp [resolveCell, hshift, hreduce, resolveShiftReduce, hterm, Except.map]
  exact ⟨hc, buildTableActions_not_ok c hc cells hmem⟩

/-- Sample conflict cell for C6. -/
def sampleConflictCell : SRCell :=
  { shiftNext := some 3, reduceCand := some (2, some 1),
    termPrec := some (1, Assoc.NONE) }

/-- Witness for C6: a concrete one-cell table build aborts. -/
theorem noneAssoc_conflict_aborts_build_witness :
    resolveCell sampleConflictCell = .error .grammarConflict
    ∧ ∀ acts, buildTableActions [sampleConflictCell] ≠ .ok acts :=
  noneAssoc_conflict_aborts_build [sampleConflictCell] sampleConflictCell
    3 2 1 (List.mem_singleton.mpr rfl) rfl rfl rfl

/-
Analysis of getLoc: the loop is split into the phase before the first
offset is captured and the phase before the second.
-/

theorem getLocLoop_nil_late (r0 r1 : Nat) :
    ∀ (src : List Char) (i : Nat) (p : LinePos), r0 < i →
      getLocLoop [r0, r1] src i p [] = none := by
  intro src
  induction src with
  | nil => intro i p hi; rfl
  | cons c rest ih =>
    intro i p hi
    have hne : ¬ ([r0, r1].get? (List.length ([] : List LinePos)) = some i) := by
      simp [List.get?]
      omega
    rw [getLocLoop, if_neg hne]
    exact ih (i + 1) (advancePos p c) (by omega)

theorem getLocLoop_one_late (r0 r1 : Nat) (q : LinePos) :
    ∀ (src : List Char) (i : Nat) (p : LinePos), r1 < i →
      getLocLoop [r0, r1] src i p [q] = none := by
  intro src
  induction src with
  | nil => intro i p hi; rfl
  | cons c rest ih =>
    intro i p hi
    have hne : ¬ ([r0, r1].get? (List.length [q]) = some i) := by
      simp [List.get?]
      omega
    rw [getLocLoop, if_neg hne]
    exact ih (i + 1) (advancePos p c) (by omega)

theorem getLocLoop_one_phase (r0 r1 : Nat) (q : LinePos) :
    ∀ (src : List Char) (i : Nat) (p : LinePos), i ≤ r1 →
      getLocLoop [r0, r1] src i p [q] =
        if r1 - i < src.length then
          some [q, (src.take (r1 - i)).foldl advancePos p]
        else none := by
  intro src
  induction src with
  | nil =>
    intro i p hi
    simp [getLocLoop]
  | cons c rest ih =>
    intro i p hi
    by_cases hhit : i = r1
    · have hcond : [r0, r1].get? (List.length [q]) = some i := by
        simp [List.get?, hhit]
      rw [getLocLoop, if_pos hcond]
      have h0 : r1 - i = 0 := by omega
      rw [h0]
      simp
    · have hlt : i < r1 := by omega
      have hne : ¬ ([r0, r1].get? (List.length [q]) = some i) := by
        simp [List.get?]
        omega
      rw [getLocLoop, if_neg hne]
      rw [ih (i + 1) (advancePos p c) (by omega)]
      obtain ⟨m, hm⟩ : ∃ m, r1 - i = m + 1 := ⟨r1 - i - 1, by omega⟩
      have hm' : r1 - (i + 1) = m := by omega
      rw [hm, hm']
      by_cases hlen : m < rest.length
      · rw [if_pos hlen, if_pos (by simp; omega)]
        simp [List.take_cons]
      · rw [if_neg hlen, if_neg (by simp; omega)]

theorem getLocLoop_nil_phase (r0 r1 : Nat) :
    ∀ (src : List Char) (i : Nat) (p : LinePos), i ≤ r0 →
      getLocLoop [r0, r1] src i p [] =
        if r0 - i < src.length then
          getLocLoop [r0, r1] (src.drop (r0 - i + 1)) (r0 + 1)
            ((src.take (r0 - i + 1)).foldl advancePos p)
            [(src.take (r0 - i)).foldl advancePos p]
        else none := by
  intro src
  induction src with
  | nil =>
    intro i p hi
    simp [getLocLoop]
  | cons c rest ih =>
    intro i p hi
    by_cases hhit : i = r0
    · have hcond : [r0, r1].get? (List.length ([] : List LinePos)) = some i := by
        simp [List.get?, hhit]
      rw [getLocLoop, if_pos hcond]
      have h0 : r0 - i = 0 := by omega
      rw [h0]
      simp [hhit]
    · have hlt : i < r0 := by omega
      have hne : ¬ ([r0, r1].get? (List.length ([] : List LinePos)) = some i) := by
        simp [List.get?]
        omega
      rw [getLocLoop, if_neg hne]
      rw [ih (i + 1) (advancePos p c) (by omega)]
      obtain ⟨m, hm⟩ : ∃ m, r0 - i = m + 1 := ⟨r0 - i - 1, by omega⟩
      have hm' : r0 - (i + 1) = m := by omega
      rw [hm, hm']
      by_cases hlen : m < rest.length
      · rw [if_pos hlen, if_pos (by simp; omega)]
        simp [List.take_cons, List.drop]
      · rw [if_neg hlen, if_neg (by simp; omega)]

theorem getLoc_characterisation (source : List Char) (r0 r1 : Nat) :
    getLoc source r0 r1 =
      if r0 < r1 ∧ r1 < source.length then
        some (lineColAt source r0, lineColAt source r1)
      else none := by
  unfold getLoc
  rw [getLocLoop_nil_phase r0 r1 source 0 { line := 1, column := 0 } (Nat.zero_le r0)]
  simp only [Nat.sub_zero]
  by_cases h0 : r0 < source.length
  · rw [if_pos h0]
    by_cases h1 : r0 + 1 ≤ r1
    · rw [getLocLoop_one_phase r0 r1 _ _ (r0 + 1) _ h1]
      have hdl : (source.drop (r0 + 1)).length = source.length - (r0 + 1) := by
        simp
      by_cases h2 : r1 < source.length
      · have hc : r1 - (r0 + 1) < (source.drop (r0 + 1)).length := by
          rw [hdl]; omega
        rw [if_pos hc, if_pos ⟨by omega, h2⟩]
        have htake : (source.take (r0 + 1)) ++ ((source.drop (r0 + 1)).take (r1 - (r0 + 1)))
            = source.take r1 := by
          rw [← List.take_add]
          congr 1
          omega
        unfold lineColAt
        rw [← htake, List.foldl_append]
      · have hc : ¬ (r1 - (r0 + 1) < (source.drop (r0 + 1)).length) := by
          rw [hdl]; omega
        rw [if_neg hc, if_neg (by tauto)]
    · rw [getLocLoop_one_late r0 r1 _ _ (r0 + 1) _ (by omega)]
      rw [if_neg (by omega)]
  · rw [if_neg h0, if_neg (by omega)]

theorem advancePos_line_le (p : LinePos) (c : Char) :
    p.line ≤ (advancePos p c).line := by
  unfold advancePos
  split <;> simp

theorem foldl_advancePos_line (cs : List Char) :
    ∀ (p : LinePos), p.line ≤ (cs.foldl advancePos p).line := by
  induction cs with
  | nil => intro p; simp
  | cons c rest ih =>
    intro p
    calc p.line ≤ (advancePos p c).line := advancePos_line_le p c
    _ ≤ ((c :: rest).foldl advancePos p).line := by
        simpa using ih (advancePos p c)

theorem lineColAt_line_pos (source : List Char) (n : Nat) :
    1 ≤ (lineColAt source n).line := by
  unfold lineColAt
  have h := foldl_advancePos_line (source.take n) { line := 1, column := 0 }
  simpa using h

/-- Claim C10: getLoc is partial: it yields a start/end pair (each line at
least 1, each column at least 0) equal to the line/column positions of the
two offsets only when both offsets are strictly below the source length;
an out-of-range offset yields undefined, and the compile error path then
raises the TypeError of reading .start on undefined instead of the located
message. -/
theorem getLoc_partiality :
    (∀ (source : List Char) (r0 r1 : Nat) (s e : LinePos),
        getLoc source r0 r1 = some (s, e) →
        r0 < source.length ∧ r1 < source.length
        ∧ s = lineColAt source r0 ∧ e = lineColAt source r1
        ∧ 1 ≤ s.line ∧ 1 ≤ e.line ∧ 0 ≤ s.column ∧ 0 ≤ e.column)
    ∧ (∀ (source : List Char) (r0 r1 : Nat),
        source.length ≤ r0 ∨ source.length ≤ r1 → getLoc source r0 r1 = none)
    ∧ (∀ (msg : String) (t : DslToken),
        t.source.length ≤ t.range.getD 0 0 →
        rethrowWithLoc msg t = .typeErrorUndefined) := by
  refine ⟨?_, ?_, ?_⟩
  · intro source r0 r1 s e hsome
    rw [getLoc_characterisation] at hsome
    by_cases hc : r0 < r1 ∧ r1 < source.length
    · rw [if_pos hc] at hsome
      have hs : s = lineColAt source r0 ∧ e = lineColAt source r1 := by
        cases hsome
        exact ⟨rfl, rfl⟩
      refine ⟨by omega, hc.2, hs.1, hs.2, ?_, ?_, Nat.zero_le _, Nat.zero_le _⟩
      · rw [hs.1]
        exact lineColAt_line_pos source r0
      · rw [hs.2]
        exact lineColAt_line_pos source r1
    · rw [if_neg hc] at hsome
      cases hsome
  · intro source r0 r1 hout
    rw [getLoc_characterisation, if_neg (by omega)]
  · intro msg t hout
    unfold rethrowWithLoc
    rw [getLoc_characterisation, if_neg (by omega)]

theorem compileLoop_append {σ : Type} (pushFn : PushFn σ) :
    ∀ (pre : List DslToken) (init st : σ) (l : List DslToken),
      compileLoop pushFn init pre = .ok st →
      compileLoop pushFn init (pre ++ l) = compileLoop pushFn st l := by
  intro pre
  induction pre with
  | nil =>
    intro init st l h
    simp only [compileLoop] at h
    cases h
    rfl
  | cons t0 rest ih =>
    intro init st l h
    simp only [compileLoop] at h
    simp only [List.cons_append, compileLoop]
    cases hp : pushFn init t0 with
    | ok st1 =>
      rw [hp] at h
      exact ih st1 st l h
    | error m =>
      rw [hp] at h
      exact Except.noConfusion h

/-- Claim C9: when a push raises during compile, compile rethrows
synchronously at that token: the result is an error whose message is the
original message followed by the location suffix computed from the
offending token's start offset, and no grammar is produced; the tokens
after the offending one are never consumed. -/
theorem compile_rethrows_at_failing_token {σ : Type}
    (pushFn : PushFn σ) (finishFn : σ → List DslLine) (init : σ)
    (pre : List DslToken) (t : DslToken) (post : List DslToken)
    (name : Option String) (st : σ) (msg : String) (s e : LinePos)
    (hpre : compileLoop pushFn init pre = .ok st)
    (hfail : pushFn st t = .error msg)
    (hloc : getLoc t.source (t.range.getD 0 0) (t.range.getD 1 0) = some (s, e)) :
    compile pushFn finishFn init (pre ++ t :: post) name
      = .error (.thrown (msg ++ " @" ++ toString s.line ++ ":" ++ toString s.column)) := by
  unfold compile
  rw [compileLoop_append pushFn pre init st (t :: post) hpre]
  simp only [compileLoop]
  rw [hfail]
  unfold rethrowWithLoc
  rw [hloc]

/-- Sample token whose push fails, with in-range offsets. -/
def sampleToken : DslToken :=
  { type := "bad", value := "", source := ['a', 'b', '\n', 'c', 'd'],
    range := [1, 3] }

/-- Sample push function erroring exactly on the bad token type. -/
def samplePush : PushFn Nat :=
  fun st t => if t.type == "bad" then .error "Unexpected token" else .ok st

/-- Sample finish function. -/
def sampleFinish : Nat → List DslLine := fun _ => []

/-- Witness for C9: a concrete failing push is rethrown with its line and
column appended, and compile yields no grammar. -/
theorem compile_rethrows_at_failing_token_witness :
    compile samplePush sampleFinish 0 ([] ++ sampleToken :: []) none
      = .error (.thrown ("Unexpected token" ++ " @"
          ++ toString (LinePos.line { line := 1, column := 1 })
          ++ ":" ++ toString (LinePos.column { line := 1, column := 1 }))) :=
  compile_rethrows_at_failing_token samplePush sampleFinish 0 [] sampleToken []
    none 0 "Unexpected token" { line := 1, column := 1 } { line := 2, column := 0 }
    rfl rfl (by rfl)

/-
Structural facts about toGrammar: the scan and reform passes only append to
the collected list, precedence is collected at the top level only, and the
queued definitions mirror the definition lines of each body.
-/

/-- The definition lines of a body, in order, as name/body pairs. -/
def defPairs : List DslLine → List (String × List DslLine)
  | [] => []
  | .definition dname dbody _ :: rest => (dname, dbody) :: defPairs rest
  | _ :: rest => defPairs rest

/-- The precedence levels a body contributes when scanned at the top
level, in order of appearance. -/
def topLevelPrecedence : List DslLine → List PrecLevel
  | [] => []
  | .precLine kind tokens _ :: rest =>
      if precedenceRegexTest kind then
        { tokens := tokens, type := precedenceMapper kind } :: topLevelPrecedence rest
      else topLevelPrecedence rest
  | _ :: rest => topLevelPrecedence rest

theorem runMultiple_effects (st : TGState) (chain : List Nat)
    (args : List (List DslExpr)) (st' : TGState) (nm : String)
    (h : runMultiple st chain args = .ok (st', nm)) :
    st.list <+: st'.list ∧ st'.precedence = st.precedence := by
  unfold runMultiple at h
  cases harg : ((args.get? 0).getD []).get? 0 with
  | none =>
    rw [harg] at h
    exact Except.noConfusion h
  | some e =>
    rw [harg] at h
    cases h
    exact ⟨(List.prefix_append _ _).trans (List.prefix_append _ _), rfl⟩

theorem reformExpr_effects (st : TGState) (chain : List Nat) (e : DslExpr)
    (st' : TGState) (s : String)
    (h : reformExpr st chain e = .ok (st', s)) :
    st.list <+: st'.list ∧ st'.precedence = st.precedence := by
  cases e with
  | strE v =>
    cases h
    exact ⟨List.prefix_rfl, rfl⟩
  | callE cname args =>
    simp only [reformExpr] at h
    by_cases hn : cname = "multiple"
    · rw [if_pos hn] at h
      split at h
      next e heq =>
        exact Except.noConfusion h
      next st1 handle heq =>
        split at h
        next hch =>
          exact Except.noConfusion h
        next hch =>
          cases h
          exact runMultiple_effects st chain args _ _ heq
    · rw [if_neg hn] at h
      exact Except.noConfusion h
  | addressE path =>
    cases path with
    | nil =>
      exact Except.noConfusion h
    | cons place rest =>
      simp only [reformExpr] at h
      cases hl : lookupChain st.store chain place with
      | none =>
        rw [hl] at h
        exact Except.noConfusion h
      | some v =>
        rw [hl] at h
        cases h
        exact ⟨List.prefix_rfl, rfl⟩
  | idE n =>
    simp only [reformExpr] at h
    cases hl : lookupChain st.store chain n with
    | none =>
      rw [hl] at h
      exact Except.noConfusion h
    | some v =>
      rw [hl] at h
      cases h
      exact ⟨List.prefix_rfl, rfl⟩

theorem reformExprs_effects (chain : List Nat) :
    ∀ (es : List DslExpr) (st : TGState) (acc : List String)
      (st' : TGState) (out : List String),
      reformExprs chain es st acc = .ok (st', out) →
      st.list <+: st'.list ∧ st'.precedence = st.precedence := by
  intro es
  induction es with
  | nil =>
    intro st acc st' out h
    cases h
    exact ⟨List.prefix_rfl, rfl⟩
  | cons e rest ih =>
    intro st acc st' out h
    simp only [reformExprs] at h
    cases he : reformExpr st chain e with
    | error msg =>
      rw [he] at h
      exact Except.noConfusion h
    | ok pr =>
      obtain ⟨st1, s1⟩ := pr
      rw [he] at h
      have h1 := reformExpr_effects st chain e st1 s1 he
      have h2 := ih st1 (acc ++ [s1]) st' out h
      exact ⟨h1.1.trans h2.1, h2.2.trans h1.2⟩

theorem reformProds_effects (name : String) (chain : List Nat) :
    ∀ (prods : List ProdRec) (st : TGState) (st' : TGState),
      reformProds name chain prods st = .ok st' →
      st.list <+: st'.list ∧ st'.precedence = st.precedence := by
  intro prods
  induction prods with
  | nil =>
    intro st st' h
    cases h
    exact ⟨List.prefix_rfl, rfl⟩
  | cons p rest ih =>
    intro st st' h
    simp only [reformProds] at h
    cases he : reformExprs chain p.prod st [] with
    | error msg =>
      rw [he] at h
      exact Except.noConfusion h
    | ok pr =>
      obtain ⟨st1, reformed⟩ := pr
      rw [he] at h
      have h1 := reformExprs_effects chain p.prod st [] st1 reformed he
      have h2 := ih _ st' h
      refine ⟨h1.1.trans ((List.prefix_append _ _).trans h2.1), h2.2.trans h1.2⟩

theorem string_empty_of_not_length_pos (s : String) (h : ¬ 0 < s.length) :
    s = "" := by
  cases s with
  | mk data =>
    cases data with
    | nil => rfl
    | cons c rest => simp at h

theorem qualify_ne_empty (name dname : String) (hname : name ≠ "") :
    qualify name dname ≠ "" := by
  unfold qualify
  rw [if_neg hname]
  intro h
  have h2 := congrArg String.length h
  simp [String.length_append] at h2
  exact absurd h2.1.2 (by decide)

theorem bindVar_list (st : TGState) (chain : List Nat) (k v : String) :
    (st.bindVar chain k v).list = st.list := rfl

theorem bindVar_precedence (st : TGState) (chain : List Nat) (k v : String) :
    (st.bindVar chain k v).precedence = st.precedence := rfl

theorem scanBody_effects (rootName : Option String) (name : String)
    (chain : List Nat) :
    ∀ (lines : List DslLine) (st : TGState) (defsAcc : List DefEntry)
      (prodsAcc : List ProdRec) (st1 : TGState) (children : List DefEntry)
      (prods : List ProdRec),
      scanBody rootName name chain lines st defsAcc prodsAcc
        = .ok (st1, children, prods) →
      st.list <+: st1.list
      ∧ st1.precedence = st.precedence ++ topLevelPrecedence lines
      ∧ (name ≠ "" → topLevelPrecedence lines = [])
      ∧ children.map (fun d => (d.name, d.body))
          = defsAcc.map (fun d => (d.name, d.body))
            ++ (defPairs lines).map (fun p => (qualify name p.fst, p.snd))
      ∧ (∀ d ∈ children, d ∈ defsAcc ∨ ∃ sid, d.chain = sid :: chain) := by
  intro lines
  induction lines with
  | nil =>
    intro st defsAcc prodsAcc st1 children prods h
    simp only [scanBody] at h
    cases h
    exact ⟨List.prefix_rfl, by simp [topLevelPrecedence], fun _ => rfl,
      by simp [defPairs], fun d hd => Or.inl hd⟩
  | cons line rest ih =>
    intro st defsAcc prodsAcc st1 children prods h
    cases line with
    | precLine kind tokens l =>
      simp only [scanBody] at h
      by_cases hk : precedenceRegexTest kind = true
      · simp only [hk, if_true] at h
        by_cases hn : 0 < name.length
        · simp [hn] at h
        · simp only [hn, if_false] at h
          have hname : name = "" := string_empty_of_not_length_pos name hn
          obtain ⟨h1, h2, h3, h4, h5⟩ := ih _ _ _ _ _ _ h
          refine ⟨h1, ?_, ?_, ?_, h5⟩
          · rw [h2]
            simp [topLevelPrecedence, hk]
          · intro hne
            exact absurd hname hne
          · rw [h4]
            simp [defPairs]
      · simp only [hk, if_false] at h
        obtain ⟨h1, h2, h3, h4, h5⟩ := ih _ _ _ _ _ _ h
        refine ⟨h1, ?_, ?_, ?_, h5⟩
        · rw [h2]
          simp [topLevelPrecedence, hk]
        · intro hne
          simp [topLevelPrecedence, hk, h3 hne]
        · rw [h4]
          simp [defPairs]
    | definition dname dbody l =>
      simp only [scanBody] at h
      split at h
      next hc =>
        obtain ⟨h1, h2, h3, h4, h5⟩ := ih _ _ _ _ _ _ h
        refine ⟨?_, ?_, ?_, ?_, ?_⟩
        · exact (List.prefix_append _ _).trans h1
        · rw [h2]
          simp [topLevelPrecedence, bindVar_precedence]
        · intro hne
          simp [topLevelPrecedence, h3 hne]
        · rw [h4]
          simp [defPairs, List.map_append]
        · intro d hd
          rcases h5 d hd with hmem | hchain
          · rcases List.mem_append.mp hmem with hold | hnew
            · exact Or.inl hold
            · have hd2 := List.mem_singleton.mp hnew
              subst hd2
              exact Or.inr ⟨_, rfl⟩
          · exact Or.inr hchain
      next hc =>
        obtain ⟨h1, h2, h3, h4, h5⟩ := ih _ _ _ _ _ _ h
        refine ⟨?_, ?_, ?_, ?_, ?_⟩
        · exact h1
        · rw [h2]
          simp [topLevelPrecedence, bindVar_precedence]
        · intro hne
          simp [topLevelPrecedence, h3 hne]
        · rw [h4]
          simp [defPairs, List.map_append]
        · intro d hd
          rcases h5 d hd with hmem | hchain
          · rcases List.mem_append.mp hmem with hold | hnew
            · exact Or.inl hold
            · have hd2 := List.mem_singleton.mp hnew
              subst hd2
              exact Or.inr ⟨_, rfl⟩
          · exact Or.inr hchain
    | production prod code prec l =>
      simp only [scanBody] at h
      by_cases hn : name.length = 0
      · simp [hn] at h
      · simp only [hn, if_false] at h
        obtain ⟨h1, h2, h3, h4, h5⟩ := ih _ _ _ _ _ _ h
        refine ⟨h1, ?_, ?_, ?_, h5⟩
        · rw [h2]
          simp [topLevelPrecedence]
        · intro hne
          simp [topLevelPrecedence, h3 hne]
        · rw [h4]
          simp [defPairs]
    | importLine l =>
      simp only [scanBody] at h
      obtain ⟨h1, h2, h3, h4, h5⟩ := ih _ _ _ _ _ _ h
      refine ⟨h1, ?_, ?_, ?_, h5⟩
      · rw [h2]
        simp [topLevelPrecedence]
      · intro hne
        simp [topLevelPrecedence, h3 hne]
      · rw [h4]
        simp [defPairs]

theorem processDef_effects (rootName : Option String) (d : DefEntry)
    (st : TGState) (st2 : TGState) (children : List DefEntry)
    (h : processDef rootName d st = .ok (st2, children)) :
    st.list <+: st2.list
    ∧ st2.precedence = st.precedence ++ topLevelPrecedence d.body
    ∧ (d.name ≠ "" → topLevelPrecedence d.body = [])
    ∧ children.map (fun e => (e.name, e.body))
        = (defPairs d.body).map (fun p => (qualify d.name p.fst, p.snd)) := by
  unfold processDef at h
  split at h
  next e heq =>
    exact Except.noConfusion h
  next st1 children' prods heq =>
    split at h
    next e heq2 =>
      exact Except.noConfusion h
    next stx heq2 =>
      cases h
      obtain ⟨s1, s2, s3, s4, s5⟩ :=
        scanBody_effects rootName d.name d.chain d.body st [] [] st1 children prods heq
      obtain ⟨r1, r2⟩ := reformProds_effects d.name d.chain prods st1 st2 heq2
      exact ⟨s1.trans r1, r2.trans s2, s3, by simpa using s4⟩

/-- Well-formedness of a DSL body as the surface syntax produces it: every
definition carries a nonempty name, recursively. -/
def defNamesNonempty : List DslLine → Bool
  | [] => true
  | .definition dname dbody _ :: rest =>
      dname != "" && defNamesNonempty dbody && defNamesNonempty rest
  | _ :: rest => defNamesNonempty rest

/-- No precedence declaration sits inside any definition body, at any
depth. -/
def nestedPrecFree : List DslLine → Bool
  | [] => true
  | .definition _ dbody _ :: rest =>
      (topLevelPrecedence dbody).isEmpty && nestedPrecFree dbody && nestedPrecFree rest
  | _ :: rest => nestedPrecFree rest

theorem defNamesNonempty_pairs (lines : List DslLine)
    (h : defNamesNonempty lines = true) :
    ∀ p ∈ defPairs lines, p.fst ≠ "" ∧ defNamesNonempty p.snd = true := by
  induction lines with
  | nil =>
    intro p hp
    cases hp
  | cons line rest ih =>
    intro p hp
    cases line with
    | definition dname dbody l =>
      simp only [defNamesNonempty, Bool.and_eq_true] at h
      simp only [defPairs, List.mem_cons] at hp
      rcases hp with rfl | hp
      · refine ⟨?_, h.1.2⟩
        have := h.1.1
        simpa using this
      · exact ih h.2 p hp
    | precLine kind tokens l =>
      simp only [defNamesNonempty] at h
      simp only [defPairs] at hp
      exact ih h p hp
    | production prod code prec l =>
      simp only [defNamesNonempty] at h
      simp only [defPairs] at hp
      exact ih h p hp
    | importLine l =>
      simp only [defNamesNonempty] at h
      simp only [defPairs] at hp
      exact ih h p hp

theorem nestedPrecFree_of_pairs (lines : List DslLine)
    (h : ∀ p ∈ defPairs lines,
      topLevelPrecedence p.snd = [] ∧ nestedPrecFree p.snd = true) :
    nestedPrecFree lines = true := by
  induction lines with
  | nil => simp [nestedPrecFree]
  | cons line rest ih =>
    cases line with
    | definition dname dbody l =>
      have hd := h (dname, dbody) (by simp [defPairs])
      have hr : ∀ p ∈ defPairs rest,
          topLevelPrecedence p.snd = [] ∧ nestedPrecFree p.snd = true := by
        intro p hp
        exact h p (by simp [defPairs, hp])
      simp only [nestedPrecFree, Bool.and_eq_true]
      exact ⟨⟨by simp [List.isEmpty_iff, hd.1], hd.2⟩, ih hr⟩
    | precLine kind tokens l =>
      simp only [nestedPrecFree]
      exact ih (by intro p hp; exact h p (by simpa [defPairs] using hp))
    | production prod code prec l =>
      simp only [nestedPrecFree]
      exact ih (by intro p hp; exact h p (by simpa [defPairs] using hp))
    | importLine l =>
      simp only [nestedPrecFree]
      exact ih (by intro p hp; exact h p (by simpa [defPairs] using hp))

theorem processQueue_list_prefix (rootName : Option String)
    (q : List DefEntry) (st : TGState) :
    ∀ st', processQueue rootName q st = .ok st' → st.list <+: st'.list := by
  induction q, st using processQueue.induct rootName with
  | case1 st =>
    intro st' h
    simp only [processQueue] at h
    cases h
    exact List.prefix_rfl
  | case2 d rest st e hd =>
    intro st' h
    simp only [processQueue] at h
    split at h
    next heq =>
      exact Except.noConfusion h
    next st1' children' heq =>
      rw [hd] at heq
      exact Except.noConfusion heq
  | case3 d rest st st1 children hd ih =>
    intro st' h
    simp only [processQueue] at h
    split at h
    next heq =>
      exact Except.noConfusion h
    next st1' children' heq =>
      rw [hd] at heq
      injection heq with hpair
      injection hpair with h1 h2
      subst h1
      subst h2
      exact (processDef_effects rootName d st st1 children hd).1.trans (ih st' h)

theorem processQueue_precedence (rootName : Option String)
    (q : List DefEntry) (st : TGState) :
    ∀ st', processQueue rootName q st = .ok st' →
      (∀ d ∈ q, d.name ≠ "" ∧ defNamesNonempty d.body = true) →
      st'.precedence = st.precedence
      ∧ ∀ d ∈ q, topLevelPrecedence d.body = [] ∧ nestedPrecFree d.body = true := by
  induction q, st using processQueue.induct rootName with
  | case1 st =>
    intro st' h hinv
    simp only [processQueue] at h
    cases h
    exact ⟨rfl, fun d hd => absurd hd (List.not_mem_nil d)⟩
  | case2 d rest st e hd =>
    intro st' h hinv
    simp only [processQueue] at h
    split at h
    next heq =>
      exact Except.noConfusion h
    next st1' children' heq =>
      rw [hd] at heq
      exact Except.noConfusion heq
  | case3 d rest st st1 children hd ih =>
    intro st' h hinv
    simp only [processQueue] at h
    split at h
    next heq =>
      exact Except.noConfusion h
    next st1' children' heq =>
      rw [hd] at heq
      injection heq with hpair
      injection hpair with h1 h2
      subst h1
      subst h2
      obtain ⟨p1, p2, p3, p4⟩ := processDef_effects rootName d st st1 children hd
      have hdinv := hinv d (List.mem_cons_self d rest)
      have htop : topLevelPrecedence d.body = [] := p3 hdinv.1
      have hchild : ∀ e ∈ children,
          e.name ≠ "" ∧ defNamesNonempty e.body = true := by
        intro e he
        have hmem : (e.name, e.body) ∈ children.map (fun x => (x.name, x.body)) :=
          List.mem_map_of_mem _ he
        rw [p4] at hmem
        obtain ⟨p, hp, hpe⟩ := List.mem_map.mp hmem
        have hn : qualify d.name p.fst = e.name := congrArg Prod.fst hpe
        have hb : p.snd = e.body := congrArg Prod.snd hpe
        have hwf := defNamesNonempty_pairs d.body hdinv.2 p hp
        constructor
        · rw [← hn]
          exact qualify_ne_empty _ _ hdinv.1
        · rw [← hb]
          exact hwf.2
      have hinv' : ∀ e ∈ rest ++ children,
          e.name ≠ "" ∧ defNamesNonempty e.body = true := by
        intro e he
        rcases List.mem_append.mp he with he1 | he2
        · exact hinv e (List.mem_cons_of_mem d he1)
        · exact hchild e he2
      obtain ⟨q1, q2⟩ := ih st' h hinv'
      refine ⟨?_, ?_⟩
      · rw [q1, p2, htop, List.append_nil]
      · intro e he
        rcases List.mem_cons.mp he with rfl | hrest
        · refine ⟨htop, ?_⟩
          apply nestedPrecFree_of_pairs
          intro p hp
          have hmem : (qualify e.name p.fst, p.snd)
              ∈ children.map (fun x => (x.name, x.body)) := by
            rw [p4]
            exact List.mem_map_of_mem _ hp
          obtain ⟨ch, hch, hcheq⟩ := List.mem_map.mp hmem
          have hbody : ch.body = p.snd := congrArg Prod.snd hcheq
          have hclean := q2 ch (List.mem_append.mpr (Or.inr hch))
          rw [← hbody]
          exact hclean
        · exact q2 e (List.mem_append.mpr (Or.inl hrest))

theorem processQueue_cons_elim (rootName : Option String) (d : DefEntry)
    (rest : List DefEntry) (st st' : TGState)
    (h : processQueue rootName (d :: rest) st = .ok st') :
    ∃ st1 children, processDef rootName d st = .ok (st1, children)
      ∧ processQueue rootName (rest ++ children) st1 = .ok st' := by
  simp only [processQueue] at h
  split at h
  next heq =>
    exact Except.noConfusion h
  next st1 children heq =>
    exact ⟨st1, children, heq, h⟩

theorem applyLineMappings_preserves (l : List ListEntry) (c : ColdCraneGrammar) :
    (applyLineMappings c l).grammar = c.grammar
    ∧ (applyLineMappings c l).actions = c.actions
    ∧ (applyLineMappings c l).dependencies = c.dependencies := by
  unfold applyLineMappings
  generalize l.enum = ps
  induction ps generalizing c with
  | nil => exact ⟨rfl, rfl, rfl⟩
  | cons p rest ih =>
    simp only [List.foldl_cons]
    exact ih (c.addSourceLineMapping p.fst (Int.ofNat p.snd.line))

/-- The Grammar value toGrammar assembles from a final state. -/
def finalGrammar (st : TGState) : Grammar :=
  { productions := st.list.map extractor, root := 0,
    precedence := st.precedence }

/-- The initial defs-queue entry of toGrammar. -/
def initialEntry (code : List DslLine) : DefEntry :=
  { body := code, name := "", chain := [0] }

theorem toGrammar_ok_elim (code : List DslLine) (rootName : Option String)
    (c : ColdCraneGrammar) (h : toGrammar code rootName = .ok c) :
    ∃ st, processQueue rootName [initialEntry code] initialTGState = .ok st
      ∧ c.grammar = finalGrammar st
      ∧ c.actions = buildActionTable st.list
      ∧ c.dependencies = st.deps := by
  unfold toGrammar at h
  split at h
  next e heq =>
    exact Except.noConfusion h
  next st heq =>
    cases h
    obtain ⟨hg, ha, hd⟩ := applyLineMappings_preserves st.list
      (ColdCraneGrammar.make (finalGrammar st) (buildActionTable st.list) st.deps)
    exact ⟨st, heq, hg, ha, hd⟩

theorem scanBody_first_def (rootName : Option String) (chain : List Nat) :
    ∀ (lines : List DslLine) (st : TGState) (defsAcc : List DefEntry)
      (prodsAcc : List ProdRec) (st1 : TGState) (children : List DefEntry)
      (prods : List ProdRec) (fn : String) (fb : List DslLine),
      scanBody rootName "" chain lines st defsAcc prodsAcc
        = .ok (st1, children, prods) →
      st.list = [] →
      (defPairs lines).head? = some (fn, fb) →
      ∃ ln tail, st1.list
          = { type := "$$$", line := ln, production := [jsOrName rootName fn],
              code := some "$[0]", prec := none } :: tail := by
  intro lines
  induction lines with
  | nil =>
    intro st defsAcc prodsAcc st1 children prods fn fb h hempty hfirst
    simp [defPairs] at hfirst
  | cons line rest ih =>
    intro st defsAcc prodsAcc st1 children prods fn fb h hempty hfirst
    cases line with
    | precLine kind tokens l =>
      simp only [scanBody] at h
      simp only [defPairs] at hfirst
      by_cases hk : precedenceRegexTest kind = true
      · simp only [hk, if_true] at h
        rw [if_neg (by decide)] at h
        exact ih _ _ _ _ _ _ _ _ h hempty hfirst
      · simp only [hk, if_false] at h
        exact ih _ _ _ _ _ _ _ _ h hempty hfirst
    | definition dname dbody l =>
      simp only [scanBody] at h
      simp only [defPairs, List.head?] at hfirst
      injection hfirst with hpair
      have hfn : fn = dname := (congrArg Prod.fst hpair).symm
      split at h
      next hc =>
        obtain ⟨s1, _, _, _, _⟩ :=
          scanBody_effects rootName "" chain rest _ _ _ _ _ _ h
        obtain ⟨t, ht⟩ := s1
        refine ⟨l.getD st.sourceLine, t, ?_⟩
        rw [← ht]
        simp [TGState.bindVar, hempty, qualify, DslLine.loc, hfn]
      next hc =>
        exact absurd (by simp [TGState.bindVar, hempty]) hc
    | production prod code prec l =>
      simp only [scanBody] at h
      rw [if_pos (by decide)] at h
      exact Except.noConfusion h
    | importLine l =>
      simp only [scanBody] at h
      simp only [defPairs] at hfirst
      exact ih _ _ _ _ _ _ _ _ h hempty hfirst

theorem processQueue_cons_ok (rootName : Option String) (d : DefEntry)
    (rest : List DefEntry) (st st1 : TGState) (children : List DefEntry)
    (st' : TGState)
    (h1 : processDef rootName d st = .ok (st1, children))
    (h2 : processQueue rootName (rest ++ children) st1 = .ok st') :
    processQueue rootName (d :: rest) st = .ok st' := by
  simp only [processQueue]
  split
  next heq =>
    rw [h1] at heq
    exact Except.noConfusion heq
  next st1' children' heq =>
    rw [h1] at heq
    injection heq with hpair
    injection hpair with ha hb
    subst ha
    subst hb
    exact h2

theorem processQueue_nil_ok (rootName : Option String) (st : TGState) :
    processQueue rootName [] st = .ok st := by
  simp only [processQueue]

/-- Claim C8: toGrammar resolves a non-terminal referenced in a production
through the scope chain: the innermost binding wins, lookup falls back
through the enclosing scopes, an unbound name throws the error naming the
undefined non-terminal, and every scope queued for a nested definition is
created with the current chain as its prototype chain. -/
theorem nonterminal_scope_resolution :
    (∀ (st : TGState) (chain : List Nat) (n : String),
        reformExpr st chain (.idE n)
          = match lookupChain st.store chain n with
            | some v => .ok (st, v)
            | none => .error ("Non-terminal \"" ++ n ++ "\" not defined"))
    ∧ (∀ (store : List (List (String × String))) (sid : Nat) (rest : List Nat)
          (n v : String), lookupS (store.getD sid []) n = some v →
          lookupChain store (sid :: rest) n = some v)
    ∧ (∀ (store : List (List (String × String))) (sid : Nat) (rest : List Nat)
          (n : String), lookupS (store.getD sid []) n = none →
          lookupChain store (sid :: rest) n = lookupChain store rest n)
    ∧ (∀ (st : TGState) (chain : List Nat) (place : String)
          (rest : List String), lookupChain st.store chain place = none →
          reformExpr st chain (.addressE (place :: rest))
            = .error ("Non-terminal \"" ++ place ++ "\" not defined"))
    ∧ (∀ (rootName : Option String) (name : String) (chain : List Nat)
          (lines : List DslLine) (st : TGState) (defsAcc : List DefEntry)
          (prodsAcc : List ProdRec) (st1 : TGState) (children : List DefEntry)
          (prods : List ProdRec),
          scanBody rootName name chain lines st defsAcc prodsAcc
            = .ok (st1, children, prods) →
          ∀ d ∈ children, d ∈ defsAcc ∨ ∃ sid, d.chain = sid :: chain) := by
  refine ⟨?_, ?_, ?_, ?_, ?_⟩
  · intro st chain n
    cases h : lookupChain st.store chain n <;> simp [reformExpr, h]
  · intro store sid rest n v h
    simp only [lookupChain]
    rw [h]
  · intro store sid rest n h
    simp only [lookupChain]
    rw [h]
  · intro st chain place rest h
    simp [reformExpr, h]
  · intro rootName name chain lines st defsAcc prodsAcc st1 children prods h
    exact (scanBody_effects rootName name chain lines st defsAcc prodsAcc
      st1 children prods h).2.2.2.2

theorem lookupA_buildFrom (l : List ListEntry) :
    ∀ (k j : Nat),
      lookupA ((List.enumFrom k l).filterMap
          (fun p => (entryAction p.snd).map (fun a => (p.fst, a)))) j
        = if k ≤ j then (l.get? (j - k)).bind entryAction else none := by
  induction l with
  | nil =>
    intro k j
    simp only [List.enumFrom, List.filterMap_nil, lookupA, List.get?]
    split <;> rfl
  | cons e rest ih =>
    intro k j
    simp only [List.enumFrom, List.filterMap_cons]
    cases ha : entryAction e with
    | none =>
      simp only [Option.map_none']
      rw [ih (k + 1) j]
      by_cases hkj : k ≤ j
      · by_cases hjk : j = k
        · subst hjk
          rw [if_neg (by omega), if_pos (le_refl j)]
          simp [Nat.sub_self, List.get?, ha]
        · have hlt : k + 1 ≤ j := by omega
          rw [if_pos hlt, if_pos hkj]
          obtain ⟨m, hm⟩ : ∃ m, j - k = m + 1 := ⟨j - k - 1, by omega⟩
          rw [hm, show j - (k + 1) = m by omega]
          simp [List.get?]
      · rw [if_neg (by omega), if_neg hkj]
    | some a =>
      simp only [Option.map_some']
      simp only [lookupA]
      by_cases hkey : k = j
      · subst hkey
        rw [if_pos rfl, if_pos (le_refl k)]
        simp [Nat.sub_self, List.get?, ha]
      · rw [if_neg hkey]
        rw [ih (k + 1) j]
        by_cases hkj : k ≤ j
        · have hlt : k + 1 ≤ j := by omega
          rw [if_pos hlt, if_pos hkj]
          obtain ⟨m, hm⟩ : ∃ m, j - k = m + 1 := ⟨j - k - 1, by omega⟩
          rw [hm, show j - (k + 1) = m by omega]
          simp [List.get?]
        · rw [if_neg (by omega), if_neg hkj]

theorem lookupA_buildActionTable (l : List ListEntry) (j : Nat) :
    lookupA (buildActionTable l) j = (l.get? j).bind entryAction := by
  unfold buildActionTable
  rw [show l.enum = List.enumFrom 0 l from rfl, lookupA_buildFrom l 0 j]
  simp


theorem entryAction_isSome (e : ListEntry) :
    (entryAction e).isSome = entryCodeTruthy e := by
  unfold entryAction entryCodeTruthy
  cases e.code with
  | none => rfl
  | some s => by_cases hs : s != "" <;> simp [hs]

theorem entryAction_eq_some (e : ListEntry) (a : ActionAST) :
    entryAction e = some a ↔ ∃ s, e.code = some s ∧ s ≠ "" ∧ a = compileLS s := by
  unfold entryAction
  cases hc : e.code with
  | none => simp
  | some s =>
    by_cases hs : s != "" <;> simp [hs]
    · constructor
      · intro h
        exact ⟨by simpa using hs, h.symm⟩
      · rintro ⟨hne, ha⟩
        exact ha.symm
    · intro hne
      exact absurd hne (by simpa using hs)

/-- Claim C4: in the ColdCraneGrammar returned by toGrammar the action
table has an entry exactly at the indices of collected entries carrying a
truthy code snippet, keyed by that index, and the productions are the
collected list in order, reduced to type, production and prec, so action
key i always refers to production id i. -/
theorem toGrammar_actions_align (code : List DslLine) (rootName : Option String)
    (c : ColdCraneGrammar) (hok : toGrammar code rootName = .ok c) :
    ∃ l : List ListEntry,
      c.grammar.productions = l.map extractor
      ∧ c.actions = buildActionTable l
      ∧ (∀ i, (lookupA c.actions i).isSome = true ↔
            ∃ e, l.get? i = some e ∧ entryCodeTruthy e = true)
      ∧ (∀ i a, lookupA c.actions i = some a →
            ∃ e s, l.get? i = some e ∧ e.code = some s ∧ s ≠ ""
              ∧ a = compileLS s
              ∧ c.grammar.productions.get? i = some (extractor e)) := by
  obtain ⟨st, hq, hg, ha, hd⟩ := toGrammar_ok_elim code rootName c hok
  refine ⟨st.list, ?_, ha, ?_, ?_⟩
  · rw [hg]
    rfl
  · intro i
    rw [ha, lookupA_buildActionTable]
    cases hget : st.list.get? i with
    | none => simp [hget]
    | some e => simp [hget, entryAction_isSome]
  · intro i a hla
    rw [ha, lookupA_buildActionTable] at hla
    cases hget : st.list.get? i with
    | none =>
      rw [hget] at hla
      simp at hla
    | some e =>
      rw [hget] at hla
      simp only [Option.some_bind] at hla
      obtain ⟨s, hc, hne, haeq⟩ := (entryAction_eq_some e a).mp hla
      refine ⟨e, s, rfl, hc, hne, haeq, ?_⟩
      rw [hg]
      show (st.list.map extractor).get? i = some (extractor e)
      rw [List.get?_map, hget]
      rfl
/-- Claim C5: toGrammar collects precedence declarations into the Grammar
precedence list in input order with left, right and none mapped to LEFT,
RIGHT and NONE, and a precedence declaration inside a nested named scope is
rejected with an error instead of being collected. -/
theorem toGrammar_precedence_collection (code : List DslLine)
    (rootName : Option String) (hwf : defNamesNonempty code = true) :
    (∀ c, toGrammar code rootName = .ok c →
        c.grammar.precedence = topLevelPrecedence code)
    ∧ (nestedPrecFree code = false →
        ∀ c, toGrammar code rootName ≠ .ok c) := by
  have key : ∀ c, toGrammar code rootName = .ok c →
      c.grammar.precedence = topLevelPrecedence code
      ∧ nestedPrecFree code = true := by
    intro c hok
    obtain ⟨st, hq, hg, ha, hd⟩ := toGrammar_ok_elim code rootName c hok
    obtain ⟨st1, children, hpd, hq2⟩ :=
      processQueue_cons_elim rootName (initialEntry code) [] initialTGState st hq
    obtain ⟨p1, p2, p3, p4⟩ :=
      processDef_effects rootName (initialEntry code) initialTGState st1 children hpd
    have hchild : ∀ e ∈ children,
        e.name ≠ "" ∧ defNamesNonempty e.body = true := by
      intro e he
      have hmem : (e.name, e.body) ∈ children.map (fun x => (x.name, x.body)) :=
        List.mem_map_of_mem _ he
      rw [p4] at hmem
      obtain ⟨p, hp, hpe⟩ := List.mem_map.mp hmem
      have hn : qualify (initialEntry code).name p.fst = e.name :=
        congrArg Prod.fst hpe
      have hb : p.snd = e.body := congrArg Prod.snd hpe
      have hwf2 := defNamesNonempty_pairs code hwf p hp
      constructor
      · rw [← hn]
        show qualify "" p.fst ≠ ""
        simpa [qualify] using hwf2.1
      · rw [← hb]
        exact hwf2.2
    obtain ⟨q1, q2⟩ := processQueue_precedence rootName ([] ++ children) st1 st hq2
      (by
        intro e he
        exact hchild e (by simpa using he))
    constructor
    · rw [hg]
      show st.precedence = _
      rw [q1, p2]
      show initialTGState.precedence ++ topLevelPrecedence code = _
      simp [initialTGState]
    · apply nestedPrecFree_of_pairs
      intro p hp
      have hmem : (qualify (initialEntry code).name p.fst, p.snd)
          ∈ children.map (fun x => (x.name, x.body)) := by
        rw [p4]
        exact List.mem_map_of_mem _ hp
      obtain ⟨ch, hch, hcheq⟩ := List.mem_map.mp hmem
      have hbody : ch.body = p.snd := congrArg Prod.snd hcheq
      have hclean := q2 ch (by simpa using hch)
      rw [← hbody]
      exact hclean
  constructor
  · intro c hok
    exact (key c hok).1
  · intro hnest c hok
    have hfree := (key c hok).2
    rw [hnest] at hfree
    exact Bool.noConfusion hfree

theorem processDef_first_def (rootName : Option String) (code : List DslLine)
    (st : TGState) (st2 : TGState) (children : List DefEntry)
    (fn : String) (fb : List DslLine)
    (hempty : st.list = [])
    (hfirst : (defPairs code).head? = some (fn, fb))
    (h : processDef rootName (initialEntry code) st = .ok (st2, children)) :
    ∃ ln tail, st2.list
        = { type := "$$$", line := ln, production := [jsOrName rootName fn],
            code := some "$[0]", prec := none } :: tail := by
  unfold processDef at h
  split at h
  next e heq =>
    exact Except.noConfusion h
  next st1 children' prods heq =>
    split at h
    next e heq2 =>
      exact Except.noConfusion h
    next stx heq2 =>
      cases h
      obtain ⟨ln, tail, hl⟩ :=
        scanBody_first_def rootName (initialEntry code).chain code st [] []
          st1 children prods fn fb heq hempty hfirst
      obtain ⟨t2, ht2⟩ :=
        (reformProds_effects (initialEntry code).name (initialEntry code).chain
          prods st1 st2 heq2).1
      refine ⟨ln, tail ++ t2, ?_⟩
      rw [← ht2, hl]
      simp

/-- Claim C2: for a DSL body with at least one top-level definition,
toGrammar yields a grammar with root index 0 whose production 0 is the
synthetic root production with a one-symbol rhs, the designated root name
or the first-defined non-terminal. -/
theorem toGrammar_root_production (code : List DslLine)
    (rootName : Option String) (c : ColdCraneGrammar)
    (fn : String) (fb : List DslLine)
    (hfirst : (defPairs code).head? = some (fn, fb))
    (hok : toGrammar code rootName = .ok c) :
    c.grammar.root = 0
    ∧ c.grammar.productions.head?
        = some { type := "$$$", production := [jsOrName rootName fn],
                 prec := none } := by
  obtain ⟨st, hq, hg, ha, hd⟩ := toGrammar_ok_elim code rootName c hok
  obtain ⟨st1, children, hpd, hq2⟩ :=
    processQueue_cons_elim rootName (initialEntry code) [] initialTGState st hq
  obtain ⟨ln, tail, hl⟩ :=
    processDef_first_def rootName code initialTGState st1 children fn fb rfl
      hfirst hpd
  obtain ⟨t3, ht3⟩ := processQueue_list_prefix rootName ([] ++ children) st1 st hq2
  rw [hg]
  refine ⟨rfl, ?_⟩
  show (st.list.map extractor).head? = _
  rw [← ht3, hl]
  simp [extractor]

/-- Sample DSL body used by the concrete witnesses below. -/
def sampleDsl : List DslLine :=
  [DslLine.precLine "left" ["+"] (some 1),
   DslLine.definition "a"
     [DslLine.production [DslExpr.strE "x"] (some "$[0]") none (some 3)]
     (some 2)]

def sampleChild : DefEntry :=
  { body := [DslLine.production [DslExpr.strE "x"] (some "$[0]") none (some 3)],
    name := "a", chain := [1, 0] }

def sampleState1 : TGState :=
  { store := [[("a", "a")], []],
    precedence := [{ tokens := ["+"], type := Assoc.LEFT }],
    list := [{ type := "$$$", line := 2, production := ["a"],
               code := some "$[0]", prec := none }],
    counter := 0, sourceLine := 2, deps := [] }

def sampleState2 : TGState :=
  { store := [[("a", "a")], []],
    precedence := [{ tokens := ["+"], type := Assoc.LEFT }],
    list := [{ type := "$$$", line := 2, production := ["a"],
               code := some "$[0]", prec := none },
             { type := "a", line := 3, production := ["x"],
               code := some "$[0]", prec := none }],
    counter := 0, sourceLine := 3, deps := [] }

def sampleDslCold : ColdCraneGrammar :=
  { grammar :=
      { productions := [{ type := "$$$", production := ["a"], prec := none },
                        { type := "a", production := ["x"], prec := none }],
        root := 0,
        precedence := [{ tokens := ["+"], type := Assoc.LEFT }] },
    actions := [(0, ActionAST.compiled "$[0]"), (1, ActionAST.compiled "$[0]")],
    dependencies := [],
    sourceLineMappings := [2, 3] }

theorem sampleDsl_step1 :
    processDef none (initialEntry sampleDsl) initialTGState
      = .ok (sampleState1, [sampleChild]) := rfl

theorem sampleDsl_step2 :
    processDef none sampleChild sampleState1 = .ok (sampleState2, []) := rfl

theorem sampleDsl_eval : toGrammar sampleDsl none = .ok sampleDslCold := by
  have hq : processQueue none [initialEntry sampleDsl] initialTGState
      = .ok sampleState2 := by
    apply processQueue_cons_ok none (initialEntry sampleDsl) [] initialTGState
      sampleState1 [sampleChild] sampleState2 sampleDsl_step1
    show processQueue none [sampleChild] sampleState1 = .ok sampleState2
    apply processQueue_cons_ok none sampleChild [] sampleState1
      sampleState2 [] sampleState2 sampleDsl_step2
    exact processQueue_nil_ok none sampleState2
  have hq2 : processQueue none [{ body := sampleDsl, name := "", chain := [0] }]
      initialTGState = .ok sampleState2 := hq
  unfold toGrammar
  rw [hq2]
  rfl

/-- Sample DSL body with a precedence declaration nested in a scope. -/
def badDsl : List DslLine :=
  [DslLine.definition "a" [DslLine.precLine "left" ["+"] none] none]

/-- Witness for C2 at the sample DSL body. -/
theorem toGrammar_root_production_witness :
    sampleDslCold.grammar.root = 0
    ∧ sampleDslCold.grammar.productions.head?
        = some { type := "$$$", production := [jsOrName none "a"],
                 prec := none } :=
  toGrammar_root_production sampleDsl none sampleDslCold "a"
    [DslLine.production [DslExpr.strE "x"] (some "$[0]") none (some 3)]
    rfl sampleDsl_eval

/-- Witness for C4 at the sample DSL body. -/
theorem toGrammar_actions_align_witness :
    ∃ l : List ListEntry,
      sampleDslCold.grammar.productions = l.map extractor
      ∧ sampleDslCold.actions = buildActionTable l
      ∧ (∀ i, (lookupA sampleDslCold.actions i).isSome = true ↔
            ∃ e, l.get? i = some e ∧ entryCodeTruthy e = true)
      ∧ (∀ i a, lookupA sampleDslCold.actions i = some a →
            ∃ e s, l.get? i = some e ∧ e.code = some s ∧ s ≠ ""
              ∧ a = compileLS s
              ∧ sampleDslCold.grammar.productions.get? i
                  = some (extractor e)) :=
  toGrammar_actions_align sampleDsl none sampleDslCold sampleDsl_eval

/-- Witness for C5: the sample precedence level is collected in order, and
a body with a nested precedence declaration is rejected. -/
theorem toGrammar_precedence_collection_witness :
    sampleDslCold.grammar.precedence = topLevelPrecedence sampleDsl
    ∧ toGrammar badDsl none ≠ .ok sampleDslCold :=
  ⟨(toGrammar_precedence_collection sampleDsl none
      (by simp [sampleDsl, defNamesNonempty])).1 sampleDslCold sampleDsl_eval,
   (toGrammar_precedence_collection badDsl none
      (by simp [badDsl, defNamesNonempty])).2
     (by simp [badDsl, nestedPrecFree, topLevelPrecedence, precedenceRegexTest])
     sampleDslCold⟩
